import Mathlib

/-
Verification of the FUSY command execution policy engine
(packages/tools/src: parseCommand, splitByMetaOperators, parseArgv,
parseSubcommands, extractExecutableBins, hasMetaOperators,
isCommandAllowed, runCommandInternal).

The TypeScript source is embedded shallowly: strings become `String`
(lists of characters), the character-indexed loops become structural
recursions or folds over `List Char`, thrown errors become explicit
`Decision` constructors or `Except` values, and the dispatcher
`runCommandInternal` is modelled up to (but not including) the actual
process spawn by the pure function `runCommandDecision`.
-/

namespace Fusy

/-- The JavaScript regular-expression class \s and the character set
removed by String.prototype.trim (WhiteSpace plus LineTerminator). -/
def isJsWhitespace (c : Char) : Bool :=
  let n := c.toNat
  n = 0x9 || n = 0xa || n = 0xb || n = 0xc || n = 0xd || n = 0x20 ||
  n = 0xa0 || n = 0x1680 || (0x2000 <= n && n <= 0x200a) ||
  n = 0x2028 || n = 0x2029 || n = 0x202f || n = 0x205f || n = 0x3000 || n = 0xfeff

/-- JavaScript String.prototype.trim on a character list. -/
def trimL (cs : List Char) : List Char :=
  ((cs.dropWhile isJsWhitespace).reverse.dropWhile isJsWhitespace).reverse

/-- Source `parseCommand`: `command.trim().split(/\s+/u)` first element,
as a character list: the leading maximal run of non-whitespace of the
trimmed input. -/
def parseCommandL (cs : List Char) : List Char :=
  (trimL cs).takeWhile (fun c => !isJsWhitespace c)

/-- `if (current.trim()) segments.push(current.trim())` of the segmenter. -/
def pushSeg (current : List Char) (rest : List (List Char)) : List (List Char) :=
  if trimL current = [] then rest else trimL current :: rest

/-- Source `splitByMetaOperators` loop body.  State: remaining input,
`current`, `inSingleQuote`, `inDoubleQuote`, `escapeNext`.  The check
order mirrors the source: escape consumption first, then backslash,
then the quote toggles, then quoted copying, then the two-character
operators `&&` and `||` (consuming the lookahead character), then `;`
and `|`, then plain copying.  The first argument is a recursion budget:
each step consumes at least one input character, and the theorem
`splitSegsGo_fuel_irrelevant` shows any budget at least the input
length gives the same answer, so `splitSegsL` below is the loop of the
source. -/
def splitSegsGo : Nat → List Char → List Char → Bool → Bool → Bool → List (List Char)
  | _, [], current, _, _, _ => pushSeg current []
  | 0, _ :: _, current, _, _, _ => pushSeg current []
  | fuel + 1, c :: rest, current, inS, inD, esc =>
    if esc = true then splitSegsGo fuel rest (current ++ [c]) inS inD false
    else if c = '\\' then splitSegsGo fuel rest (current ++ [c]) inS inD true
    else if c = '\'' ∧ inD = false then splitSegsGo fuel rest (current ++ [c]) (!inS) inD esc
    else if c = '"' ∧ inS = false then splitSegsGo fuel rest (current ++ [c]) inS (!inD) esc
    else if inS = true ∨ inD = true then splitSegsGo fuel rest (current ++ [c]) inS inD esc
    else if (c = '&' ∧ rest.head? = some '&') ∨ (c = '|' ∧ rest.head? = some '|') then
      pushSeg current (splitSegsGo fuel rest.tail [] inS inD esc)
    else if c = ';' ∨ c = '|' then
      pushSeg current (splitSegsGo fuel rest [] inS inD esc)
    else splitSegsGo fuel rest (current ++ [c]) inS inD esc

/-- Source `splitByMetaOperators` on character lists. -/
def splitSegsL (cs : List Char) : List (List Char) :=
  splitSegsGo cs.length cs [] false false false

/-- The mutable state of the source `parseArgv` loop. -/
structure ArgvState where
  argv : List (List Char)
  token : List Char
  inSingleQuote : Bool
  inDoubleQuote : Bool
  escapeNext : Bool
deriving Repr, DecidableEq

/-- One iteration of the source `parseArgv` loop. -/
def argvStep (st : ArgvState) (c : Char) : ArgvState :=
  if st.escapeNext = true then { st with token := st.token ++ [c], escapeNext := false }
  else if c = '\\' ∧ st.inSingleQuote = false then { st with escapeNext := true }
  else if c = '\'' ∧ st.inDoubleQuote = false then { st with inSingleQuote := !st.inSingleQuote }
  else if c = '"' ∧ st.inSingleQuote = false then { st with inDoubleQuote := !st.inDoubleQuote }
  else if st.inSingleQuote = false ∧ st.inDoubleQuote = false ∧ isJsWhitespace c = true then
    if st.token ≠ [] then { st with argv := st.argv ++ [st.token], token := [] } else st
  else { st with token := st.token ++ [c] }

/-- The state of the source `parseArgv` loop after consuming the input. -/
def argvScan (cs : List Char) : ArgvState :=
  cs.foldl argvStep ⟨[], [], false, false, false⟩

/-- Source `parseArgv`: after the loop, an open quote or a pending escape
throws `Invalid command syntax`; otherwise the last token is flushed. -/
def parseArgvL (cs : List Char) : Except String (List (List Char)) :=
  let st := argvScan cs
  if st.inSingleQuote = true ∨ st.inDoubleQuote = true ∨ st.escapeNext = true then
    Except.error ("Invalid command syntax: " ++ String.mk cs)
  else if st.token ≠ [] then Except.ok (st.argv ++ [st.token])
  else Except.ok st.argv

/-- The backtick scan of source `parseSubcommands`: the global regex
matching a backtick, one or more non-backtick characters (captured),
and a closing backtick, restarting after each match; the state carries
the capture in progress (reversed). -/
def btAux : List Char → Option (List Char) → List (List Char)
  | [], _ => []
  | '`' :: rest, none => btAux rest (some [])
  | '`' :: rest, some acc =>
    if acc = [] then btAux rest (some [])
    else acc.reverse :: btAux rest none
  | _ :: rest, none => btAux rest none
  | c :: rest, some acc => btAux rest (some (c :: acc))

/-- The dollar scan of source `parseSubcommands`: the global regex
matching the two characters of a dollar-parenthesis opener, one or more
non-closing-parenthesis characters (captured), and the first closing
parenthesis. -/
def dollarAux : List Char → Option (List Char) → List (List Char)
  | [], _ => []
  | '$' :: '(' :: rest, none => dollarAux rest (some [])
  | ')' :: rest, some acc =>
    if acc = [] then dollarAux rest none
    else acc.reverse :: dollarAux rest none
  | _ :: rest, none => dollarAux rest none
  | c :: rest, some acc => dollarAux rest (some (c :: acc))

/-- Source `parseSubcommands`: all backtick captures then all
dollar-parenthesis captures, each trimmed, empty ones dropped. -/
def parseSubL (cs : List Char) : List (List Char) :=
  ((btAux cs none).map trimL).filter (fun sub => sub ≠ []) ++
    ((dollarAux cs none).map trimL).filter (fun sub => sub ≠ [])

/-- Source `extractExecutableBins`, with an explicit recursion budget:
the leading token of every segment, then, recursively, the bins of every
substitution body.  The budget only bounds the recursion depth; the
theorem `extractBinsCore_fuel_irrelevant` shows any budget at least the
input length gives the same answer, so `extractBinsL` below is the
function computed by the source. -/
def extractBinsCore : Nat → List Char → List (List Char)
  | 0, cs => ((splitSegsL cs).map parseCommandL).filter (fun bin => bin ≠ [])
  | fuel + 1, cs =>
    ((splitSegsL cs).map parseCommandL).filter (fun bin => bin ≠ []) ++
      ((parseSubL cs).map (extractBinsCore fuel)).flatten

/-- Source `extractExecutableBins` on character lists. -/
def extractBinsL (cs : List Char) : List (List Char) :=
  extractBinsCore cs.length cs

/-- Source `META_OPERATORS`. -/
def metaOperators : List (List Char) :=
  [['&', '&'], ['|', '|'], [';'], ['|'], ['`'], ['$', '(']]

/-- List containment of a contiguous subsequence, the model of JavaScript
String.prototype.includes. -/
def containsSeq (needle : List Char) : List Char → Bool
  | [] => needle.isEmpty
  | c :: rest => needle.isPrefixOf (c :: rest) || containsSeq needle rest

/-- Source `hasMetaOperators`: a raw textual scan of the whole command,
not quote aware. -/
def hasMetaOperatorsL (cs : List Char) : Bool :=
  metaOperators.any (fun op => containsSeq op cs)

/-- Source `splitByMetaOperators` on strings. -/
def splitByMetaOperators (s : String) : List String :=
  (splitSegsL s.data).map String.mk

/-- Source `parseArgv` on strings. -/
def parseArgv (s : String) : Except String (List String) :=
  (parseArgvL s.data).map (fun tokens => tokens.map String.mk)

/-- Source `parseCommand` on strings. -/
def parseCommand (s : String) : String :=
  String.mk (parseCommandL s.data)

/-- Source `parseSubcommands` on strings. -/
def parseSubcommands (s : String) : List String :=
  (parseSubL s.data).map String.mk

/-- Source `extractExecutableBins` on strings. -/
def extractExecutableBins (s : String) : List String :=
  (extractBinsL s.data).map String.mk

/-- Source `hasMetaOperators` on strings. -/
def hasMetaOperators (s : String) : Bool :=
  hasMetaOperatorsL s.data

/-- Source `strictPolicy` object: the optional `allowMetaOperators` flag. -/
structure StrictPolicy where
  allowMetaOperators : Option Bool := none
deriving Repr, DecidableEq

/-- Source `RunCommandPolicy`: every field optional, mirroring the
TypeScript interface. -/
structure RunCommandPolicy where
  allowList : Option (List String) := none
  denyList : Option (List String) := none
  requireApproval : Option Bool := none
  approved : Option Bool := none
  strictPolicy : Option StrictPolicy := none
deriving Repr, DecidableEq

/-- The hard-coded default deny list of source `isCommandAllowed`. -/
def defaultDenyList : List String := ["rm", "shutdown", "reboot", "mkfs", "dd"]

/-- Source `isCommandAllowed`: deny list (defaulted) first, then the
allow list when present and non-empty, otherwise allowed. -/
def isCommandAllowed (bin : String) (policy : RunCommandPolicy) : Bool :=
  let denied := policy.denyList.getD defaultDenyList
  if denied.contains bin then false
  else
    match policy.allowList with
    | none => true
    | some allowed => if allowed.length = 0 then true else allowed.contains bin

/-- Source `policy.strictPolicy?.allowMetaOperators === true`. -/
def allowMetaOperatorsOf (policy : RunCommandPolicy) : Bool :=
  match policy.strictPolicy with
  | none => false
  | some sp => sp.allowMetaOperators == some true

/-- The observable decision of source `runCommandInternal`: one of its
typed rejections, or the execution request it hands to the runtime. -/
inductive Decision where
  | blockedMetaOperators (command : String)
  | policyDenied (bin : String)
  | requiresApproval (command : String)
  | invalidSyntax (message : String)
  | emptyCommand
  | spawnDirect (file : String) (args : List String)
  | shellDelegate (command : String)
deriving Repr, DecidableEq

/-- Source `runCommandInternal` up to the spawn: the meta-operator gate,
the per-binary policy loop (throwing on the first denied binary), the
approval gate, then the dispatch bifurcation on `allowMetaOperators`. -/
def runCommandDecision (command : String) (policy : RunCommandPolicy) : Decision :=
  let allowMetaOperators := allowMetaOperatorsOf policy
  if hasMetaOperators command = true ∧ allowMetaOperators = false then
    Decision.blockedMetaOperators command
  else
    match (extractExecutableBins command).find? (fun bin => !isCommandAllowed bin policy) with
    | some bin => Decision.policyDenied bin
    | none =>
      if policy.requireApproval = some true ∧ policy.approved ≠ some true then
        Decision.requiresApproval command
      else if allowMetaOperators = false then
        match parseArgv command with
        | Except.error msg => Decision.invalidSyntax msg
        | Except.ok [] => Decision.emptyCommand
        | Except.ok (file :: args) => Decision.spawnDirect file args
      else
        Decision.shellDelegate command

/-- A decision that reaches the runtime (either spawn path). -/
def isAccept : Decision → Bool
  | Decision.spawnDirect _ _ => true
  | Decision.shellDelegate _ => true
  | _ => false

/-- Trimming never lengthens a character list. -/
theorem trimL_length_le (cs : List Char) : (trimL cs).length ≤ cs.length := by
  unfold trimL
  have h1 : ((cs.dropWhile isJsWhitespace).reverse.dropWhile isJsWhitespace).length ≤
      (cs.dropWhile isJsWhitespace).reverse.length :=
    (List.dropWhile_sublist _).length_le
  have h2 : (cs.dropWhile isJsWhitespace).length ≤ cs.length :=
    (List.dropWhile_sublist _).length_le
  simp only [List.length_reverse] at h1 ⊢
  omega

/-- Size of a capture in progress, for the scan-length bounds below. -/
def stOffset : Option (List Char) → Nat
  | none => 0
  | some acc => acc.length + 1

/-- Every backtick capture is strictly shorter than the scanned text
plus the capture in progress. -/
theorem btAux_mem_length (cs : List Char) (st : Option (List Char)) (m : List Char)
    (hm : m ∈ btAux cs st) : m.length < cs.length + stOffset st := by
  rw [btAux.eq_def] at hm
  split at hm
  · exact absurd hm (List.not_mem_nil m)
  · have := btAux_mem_length _ _ m hm
    simp only [stOffset, List.length_cons, List.length_nil] at this ⊢
    omega
  · split at hm
    · have := btAux_mem_length _ _ m hm
      simp only [stOffset, List.length_cons, List.length_nil] at this ⊢
      omega
    · rcases List.mem_cons.mp hm with rfl | hm2
      · simp only [stOffset, List.length_reverse, List.length_cons]
        omega
      · have := btAux_mem_length _ _ m hm2
        simp only [stOffset, List.length_cons, List.length_nil] at this ⊢
        omega
  · have := btAux_mem_length _ _ m hm
    simp only [stOffset, List.length_cons, List.length_nil] at this ⊢
    omega
  · have := btAux_mem_length _ _ m hm
    simp only [stOffset, List.length_cons, List.length_nil] at this ⊢
    omega
termination_by cs.length
decreasing_by all_goals (subst_vars; simp only [List.length_cons]; omega)

/-- Every dollar-parenthesis capture is strictly shorter than the
scanned text plus the capture in progress. -/
theorem dollarAux_mem_length (cs : List Char) (st : Option (List Char)) (m : List Char)
    (hm : m ∈ dollarAux cs st) : m.length < cs.length + stOffset st := by
  rw [dollarAux.eq_def] at hm
  split at hm
  · exact absurd hm (List.not_mem_nil m)
  · have := dollarAux_mem_length _ _ m hm
    simp only [stOffset, List.length_cons, List.length_nil] at this ⊢
    omega
  · split at hm
    · have := dollarAux_mem_length _ _ m hm
      simp only [stOffset, List.length_cons, List.length_nil] at this ⊢
      omega
    · rcases List.mem_cons.mp hm with rfl | hm2
      · simp only [stOffset, List.length_reverse, List.length_cons]
        omega
      · have := dollarAux_mem_length _ _ m hm2
        simp only [stOffset, List.length_cons, List.length_nil] at this ⊢
        omega
  · have := dollarAux_mem_length _ _ m hm
    simp only [stOffset, List.length_cons, List.length_nil] at this ⊢
    omega
  · have := dollarAux_mem_length _ _ m hm
    simp only [stOffset, List.length_cons, List.length_nil] at this ⊢
    omega
termination_by cs.length
decreasing_by all_goals (subst_vars; simp only [List.length_cons]; omega)

/-- Every substitution body is strictly shorter than the command it was
found in: the recursion of the binary extractor terminates and the
budget in `extractBinsL` never runs out. -/
theorem parseSubL_mem_length (cs : List Char) (m : List Char) (hm : m ∈ parseSubL cs) :
    m.length < cs.length := by
  simp only [parseSubL, List.mem_append, List.mem_filter, List.mem_map] at hm
  rcases hm with ⟨⟨a, ha, rfl⟩, -⟩ | ⟨⟨a, ha, rfl⟩, -⟩
  · have h1 := btAux_mem_length cs none (trimL a)
    have h2 := trimL_length_le a
    have h3 := btAux_mem_length cs none a ha
    simp only [stOffset] at h3
    omega
  · have h2 := trimL_length_le a
    have h3 := dollarAux_mem_length cs none a ha
    simp only [stOffset] at h3
    omega

theorem parseSubL_nil : parseSubL [] = [] := rfl

/-- The recursion budget of `extractBinsCore` is immaterial once it is
at least the input length: `extractBinsL` computes the full recursion
of the source `extractExecutableBins`. -/
theorem extractBinsCore_fuel_irrelevant (f1 : Nat) : ∀ (f2 : Nat) (cs : List Char),
    cs.length ≤ f1 → cs.length ≤ f2 → extractBinsCore f1 cs = extractBinsCore f2 cs := by
  induction f1 with
  | zero =>
    intro f2 cs h1 _
    have hnil : cs = [] := List.length_eq_zero.mp (Nat.le_zero.mp h1)
    subst hnil
    cases f2 with
    | zero => rfl
    | succ m => simp [extractBinsCore, parseSubL_nil]
  | succ n ih =>
    intro f2 cs h1 h2
    cases f2 with
    | zero =>
      have hnil : cs = [] := List.length_eq_zero.mp (Nat.le_zero.mp h2)
      subst hnil
      simp [extractBinsCore, parseSubL_nil]
    | succ m =>
      simp only [extractBinsCore]
      congr 1
      congr 1
      apply List.map_congr_left
      intro sub hsub
      have hlt := parseSubL_mem_length cs sub hsub
      exact ih m sub (by omega) (by omega)

/-- The recursion budget of `splitSegsGo` is immaterial once it is at
least the input length: `splitSegsL` computes the loop of the source
`splitByMetaOperators`. -/
theorem splitSegsGo_fuel_irrelevant (f1 : Nat) : ∀ (f2 : Nat) (cs current : List Char)
    (inS inD esc : Bool), cs.length ≤ f1 → cs.length ≤ f2 →
    splitSegsGo f1 cs current inS inD esc = splitSegsGo f2 cs current inS inD esc := by
  induction f1 with
  | zero =>
    intro f2 cs current inS inD esc h1 _
    have hnil : cs = [] := List.length_eq_zero.mp (Nat.le_zero.mp h1)
    subst hnil
    cases f2 <;> rfl
  | succ n ih =>
    intro f2 cs current inS inD esc h1 h2
    cases cs with
    | nil => cases f2 <;> rfl
    | cons c rest =>
      cases f2 with
      | zero => simp only [List.length_cons] at h2; omega
      | succ m =>
        have hr1 : rest.length ≤ n := by simp only [List.length_cons] at h1; omega
        have hr2 : rest.length ≤ m := by simp only [List.length_cons] at h2; omega
        have ht1 : rest.tail.length ≤ n := by
          have := List.length_tail rest; omega
        have ht2 : rest.tail.length ≤ m := by
          have := List.length_tail rest; omega
        simp only [splitSegsGo]
        split_ifs
        · exact ih m rest _ _ _ _ hr1 hr2
        · exact ih m rest _ _ _ _ hr1 hr2
        · exact ih m rest _ _ _ _ hr1 hr2
        · exact ih m rest _ _ _ _ hr1 hr2
        · exact ih m rest _ _ _ _ hr1 hr2
        · rw [ih m rest.tail _ _ _ _ ht1 ht2]
        · rw [ih m rest _ _ _ _ hr1 hr2]
        · exact ih m rest _ _ _ _ hr1 hr2

/-- Membership through `pushSeg`: either the trimmed, non-empty current
segment, or a member of the remainder. -/
theorem pushSeg_mem {current : List Char} {rest : List (List Char)} {seg : List Char}
    (h : seg ∈ pushSeg current rest) :
    seg = trimL current ∧ trimL current ≠ [] ∨ seg ∈ rest := by
  unfold pushSeg at h
  split at h
  · exact Or.inr h
  · rcases List.mem_cons.mp h with rfl | h2
    · exact Or.inl ⟨rfl, by assumption⟩
    · exact Or.inr h2

/-- The segmenter only ever emits non-empty segments, whatever the quote
or escape state at end of input: it has no failure mode. -/
theorem splitSegsGo_mem_ne_nil (fuel : Nat) : ∀ (cs current : List Char) (inS inD esc : Bool)
    (seg : List Char), seg ∈ splitSegsGo fuel cs current inS inD esc → seg ≠ [] := by
  induction fuel with
  | zero =>
    intro cs current inS inD esc seg h
    cases cs with
    | nil =>
      simp only [splitSegsGo] at h
      rcases pushSeg_mem h with ⟨rfl, hne⟩ | h2
      · exact hne
      · exact absurd h2 (List.not_mem_nil seg)
    | cons c rest =>
      simp only [splitSegsGo] at h
      rcases pushSeg_mem h with ⟨rfl, hne⟩ | h2
      · exact hne
      · exact absurd h2 (List.not_mem_nil seg)
  | succ n ih =>
    intro cs current inS inD esc seg h
    cases cs with
    | nil =>
      simp only [splitSegsGo] at h
      rcases pushSeg_mem h with ⟨rfl, hne⟩ | h2
      · exact hne
      · exact absurd h2 (List.not_mem_nil seg)
    | cons c rest =>
      simp only [splitSegsGo] at h
      split_ifs at h
      · exact ih _ _ _ _ _ _ h
      · exact ih _ _ _ _ _ _ h
      · exact ih _ _ _ _ _ _ h
      · exact ih _ _ _ _ _ _ h
      · exact ih _ _ _ _ _ _ h
      · rcases pushSeg_mem h with ⟨rfl, hne⟩ | h2
        · exact hne
        · exact ih _ _ _ _ _ _ h2
      · rcases pushSeg_mem h with ⟨rfl, hne⟩ | h2
        · exact hne
        · exact ih _ _ _ _ _ _ h2
      · exact ih _ _ _ _ _ _ h

/-- Inside a single-quoted span the tokenizer copies every character,
including backslashes, double quotes and whitespace, literally into the
current token and changes no state. -/
theorem foldl_argvStep_single (cs : List Char) : ∀ (argv : List (List Char)) (token : List Char),
    '\'' ∉ cs →
    cs.foldl argvStep ⟨argv, token, true, false, false⟩ = ⟨argv, token ++ cs, true, false, false⟩ := by
  induction cs with
  | nil => intro argv token _; simp
  | cons c rest ih =>
    intro argv token hq
    rw [List.mem_cons, not_or] at hq
    obtain ⟨hc, hrest⟩ := hq
    have hstep : argvStep ⟨argv, token, true, false, false⟩ c = ⟨argv, token ++ [c], true, false, false⟩ := by
      have hc2 : ¬(c = '\'') := fun h => hc h.symm
      simp [argvStep, hc2]
    rw [List.foldl_cons, hstep, ih _ _ hrest]
    simp

/-- A string is empty exactly when its character list is. -/
theorem data_eq_nil_iff (s : String) : s.data = [] ↔ s = "" := by
  constructor
  · intro h
    exact congrArg String.mk h
  · intro h
    rw [h]

/-- C1 counterexample: with meta operators permitted, the command
`rm x && dd y` under the default deny list contains the denied binary
`dd` in its extracted binary set, yet the rejection names `rm` (the
first denied binary found), not `dd`: the claim that the rejection
names every denied binary appearing in the command fails. -/
theorem denied_binary_not_always_named :
    isCommandAllowed "dd" { strictPolicy := some { allowMetaOperators := some true } } = false ∧
    (extractExecutableBins "rm x && dd y").contains "dd" = true ∧
    runCommandDecision "rm x && dd y" { strictPolicy := some { allowMetaOperators := some true } } =
      Decision.policyDenied "rm" ∧
    (decide (Decision.policyDenied "rm" = Decision.policyDenied "dd")) = false :=
  ⟨rfl, rfl, rfl, rfl⟩

/-- C1 (amended): with `strictPolicy.allowMetaOperators` true, whenever a
policy-denied binary appears in the recursively extracted binary set of
the command (across meta-operator segments and substitution bodies at
any depth), `runCommand` rejects with `PolicyDenied` naming the first
denied binary in extraction order; in particular the scenario
`runCommand("echo hi && rm -rf /tmp/nope", {denyList:["rm"],
strictPolicy:{allowMetaOperators:true}})` rejects with
`PolicyDenied("rm")`. -/
theorem policyDenied_names_first_denied :
    (∀ (cmd : String) (policy : RunCommandPolicy) (b : String),
      allowMetaOperatorsOf policy = true →
      b ∈ extractExecutableBins cmd →
      isCommandAllowed b policy = false →
      ∃ d, (extractExecutableBins cmd).find? (fun bin => !isCommandAllowed bin policy) = some d ∧
        runCommandDecision cmd policy = Decision.policyDenied d ∧
        isCommandAllowed d policy = false) ∧
    runCommandDecision "echo hi && rm -rf /tmp/nope"
        { denyList := some ["rm"], strictPolicy := some { allowMetaOperators := some true } } =
      Decision.policyDenied "rm" := by
  constructor
  · intro cmd policy b hmeta hb hden
    have hsome : ((extractExecutableBins cmd).find?
        (fun bin => !isCommandAllowed bin policy)).isSome := by
      rw [List.find?_isSome]
      exact ⟨b, hb, by simp [hden]⟩
    obtain ⟨d, hd⟩ := Option.isSome_iff_exists.mp hsome
    have hdden : isCommandAllowed d policy = false := by
      have := List.find?_some hd
      simpa using this
    refine ⟨d, hd, ?_, hdden⟩
    simp [runCommandDecision, hmeta, hd]
  · rfl

/-- C2: any command whose raw text contains one of the substrings `&&`,
`||`, `;`, `|`, a backtick or `$(` (even inside quotes, the scan being
textual), under any policy whose `strictPolicy.allowMetaOperators` is
not true, is rejected with `BlockedMetaOperators`, whatever the allow,
deny and approval fields say: no binary extraction, policy evaluation
or approval check influences the outcome. -/
theorem meta_substring_blocks_without_strict (cmd : String) (policy : RunCommandPolicy)
    (hsub : containsSeq "&&".data cmd.data = true ∨ containsSeq "||".data cmd.data = true ∨
      containsSeq ";".data cmd.data = true ∨ containsSeq "|".data cmd.data = true ∨
      containsSeq "`".data cmd.data = true ∨ containsSeq "$(".data cmd.data = true)
    (hstrict : allowMetaOperatorsOf policy = false) :
    runCommandDecision cmd policy = Decision.blockedMetaOperators cmd := by
  have hmeta : hasMetaOperators cmd = true := by
    simp only [hasMetaOperators, hasMetaOperatorsL, metaOperators, List.any_cons, List.any_nil,
      Bool.or_eq_true]
    tauto
  simp [runCommandDecision, hmeta, hstrict]

/-- C2 witness: the spec scenario `echo $(rm -rf /tmp/nope)` with only a
deny list is blocked for its meta characters. -/
theorem meta_substring_blocks_without_strict_witness :
    runCommandDecision "echo $(rm -rf /tmp/nope)" { denyList := some ["rm"] } =
      Decision.blockedMetaOperators "echo $(rm -rf /tmp/nope)" :=
  meta_substring_blocks_without_strict "echo $(rm -rf /tmp/nope)" { denyList := some ["rm"] }
    (by decide) (by decide)

/-- C3 (code bug): on the accepted command `"rm" -rf /tmp/x` (double
quotes around the binary name) the dispatcher spawns the binary `rm`,
yet the extracted binary set is only the still-quoted `"rm"`, which the
default deny list does not match even though `rm` itself is denied: the
extractor under-approximates the binaries the runtime invokes, because
`parseCommand` does not strip the quotes that `parseArgv` strips. -/
theorem quoted_binary_evades_extraction :
    runCommandDecision "\"rm\" -rf /tmp/x" {} = Decision.spawnDirect "rm" ["-rf", "/tmp/x"] ∧
    extractExecutableBins "\"rm\" -rf /tmp/x" = ["\"rm\""] ∧
    (extractExecutableBins "\"rm\" -rf /tmp/x").contains "rm" = false ∧
    isCommandAllowed "rm" {} = false :=
  ⟨rfl, rfl, rfl, rfl⟩

/-- C9: the decision pipeline is a pure function of the command and the
policy, so two evaluations of the same pair give the identical decision
(same rejection kind and payload, or same argv and dispatch choice). -/
theorem decision_deterministic (cmd : String) (policy : RunCommandPolicy) (d1 d2 : Decision)
    (h1 : runCommandDecision cmd policy = d1) (h2 : runCommandDecision cmd policy = d2) :
    d1 = d2 :=
  h1.symm.trans h2

/-- C9 witness: two evaluations of `echo hello` under an allow list
agree on the direct-spawn decision. -/
theorem decision_deterministic_witness :
    Decision.spawnDirect "echo" ["hello"] = Decision.spawnDirect "echo" ["hello"] :=
  decision_deterministic "echo hello" { allowList := some ["echo"] }
    (Decision.spawnDirect "echo" ["hello"]) (Decision.spawnDirect "echo" ["hello"]) rfl rfl

/-- C10: an explicit empty deny list replaces and disables the default
deny list (every binary, `rm` included, passes when no allow list is
given), whereas an explicit empty allow list behaves exactly as an
absent allow list rather than allowing nothing. -/
theorem empty_list_asymmetry :
    (∀ b : String, isCommandAllowed b { denyList := some [] } = true) ∧
    isCommandAllowed "rm" { denyList := some [] } = true ∧
    (∀ (b : String) (p : RunCommandPolicy), p.allowList = some [] →
      isCommandAllowed b p = isCommandAllowed b { p with allowList := none }) := by
  refine ⟨fun b => rfl, rfl, fun b p hp => ?_⟩
  simp [isCommandAllowed, hp]

/-- C4: the policy evaluator denies a binary exactly when it is in the
(defaulted) deny list, or else when an allow list is present, non-empty
and does not contain it; with no deny-list hit and no allow list the
binary is allowed, and with a non-empty allow list the outcome is
membership in it.  A binary in both lists is denied: the deny list is
checked first. -/
theorem isCommandAllowed_spec (b : String) (p : RunCommandPolicy) :
    (isCommandAllowed b p = false ↔
      b ∈ p.denyList.getD defaultDenyList ∨
        ∃ l, p.allowList = some l ∧ l ≠ [] ∧ ¬(b ∈ l)) ∧
    (b ∈ p.denyList.getD defaultDenyList → isCommandAllowed b p = false) ∧
    (¬(b ∈ p.denyList.getD defaultDenyList) → p.allowList = none →
      isCommandAllowed b p = true) ∧
    (¬(b ∈ p.denyList.getD defaultDenyList) → ∀ l, p.allowList = some l → l ≠ [] →
      (isCommandAllowed b p = true ↔ b ∈ l)) := by
  have hmem : ∀ (l : List String) (x : String), l.contains x = true ↔ x ∈ l :=
    fun l x => List.elem_iff
  by_cases hd : b ∈ p.denyList.getD defaultDenyList
  · have hct : (p.denyList.getD defaultDenyList).contains b = true := (hmem _ _).mpr hd
    have hres : isCommandAllowed b p = false := by
      simp only [isCommandAllowed]
      rw [hct]
      simp
    exact ⟨⟨fun _ => Or.inl hd, fun _ => hres⟩, fun _ => hres,
      fun h => absurd hd h, fun h => absurd hd h⟩
  · have hcf : (p.denyList.getD defaultDenyList).contains b = false := by
      cases hcb : (p.denyList.getD defaultDenyList).contains b with
      | false => rfl
      | true => exact absurd ((hmem _ _).mp hcb) hd
    rcases hA : p.allowList with _ | l
    · have hres : isCommandAllowed b p = true := by
        simp only [isCommandAllowed]
        rw [hcf, hA]
        simp
      refine ⟨⟨fun h => ?_, fun h => ?_⟩, fun hdd => absurd hdd hd, fun _ _ => hres,
        fun _ l hl => ?_⟩
      · rw [hres] at h
        cases h
      · rcases h with h1 | ⟨l, hl, -, -⟩
        · exact absurd h1 hd
        · cases hl
      · cases hl
    · by_cases hnil : l = []
      · subst hnil
        have hres : isCommandAllowed b p = true := by
          simp only [isCommandAllowed]
          rw [hcf, hA]
          simp
        refine ⟨⟨fun h => ?_, fun h => ?_⟩, fun hdd => absurd hdd hd, fun _ h => ?_,
          fun _ l2 hl2 hne2 => ?_⟩
        · rw [hres] at h
          cases h
        · rcases h with h1 | ⟨l2, hl2, hne2, -⟩
          · exact absurd h1 hd
          · injection hl2 with he
            exact absurd he.symm hne2
        · cases h
        · injection hl2 with he
          exact absurd he.symm hne2
      · have hres : isCommandAllowed b p = l.contains b := by
          have hlen : ¬(l.length = 0) := fun h => hnil (List.length_eq_zero.mp h)
          simp only [isCommandAllowed]
          rw [hcf, hA]
          simp [hlen]
        refine ⟨⟨fun h => ?_, fun h => ?_⟩, fun hdd => absurd hdd hd, fun _ h => ?_,
          fun _ l2 hl2 hne2 => ?_⟩
        · rw [hres] at h
          refine Or.inr ⟨l, rfl, hnil, fun hm => ?_⟩
          rw [(hmem l b).mpr hm] at h
          cases h
        · rw [hres]
          rcases h with h1 | ⟨l2, hl2, -, hnm⟩
          · exact absurd h1 hd
          · injection hl2 with he
            subst he
            cases hcb2 : l.contains b with
            | false => rfl
            | true => exact absurd ((hmem l b).mp hcb2) hnm
        · cases h
        · injection hl2 with he
          subst he
          rw [hres]
          exact hmem l b

/-- C5 counterexample: under `{requireApproval: true, approved: false}`
the chained command `echo hi && echo bye` — all of whose extracted
binaries are allowed — is rejected as `BlockedMetaOperators`, not as
`RequiresApproval`: the approval outcome does not hold for any command,
because the meta-operator gate fires first. -/
theorem approval_not_checked_before_meta :
    (extractExecutableBins "echo hi && echo bye").all
        (fun b => isCommandAllowed b { requireApproval := some true, approved := some false }) =
      true ∧
    runCommandDecision "echo hi && echo bye"
        { requireApproval := some true, approved := some false } =
      Decision.blockedMetaOperators "echo hi && echo bye" ∧
    (decide (Decision.blockedMetaOperators "echo hi && echo bye" =
      Decision.requiresApproval "echo hi && echo bye")) = false :=
  ⟨rfl, rfl, rfl⟩

/-- C5 (amended): once the meta-operator gate passes (no meta operators,
or they are explicitly permitted) and every extracted binary is
allowed, `requireApproval: true` without `approved: true` always yields
`RequiresApproval`; conversely `approved: true` on its own (without
`requireApproval`) never lets a command with a policy-denied binary
reach the runtime: the approval gate and the binary policy are
independent gates. -/
theorem approval_gate_after_meta_and_policy :
    (∀ (cmd : String) (policy : RunCommandPolicy),
      (hasMetaOperators cmd = false ∨ allowMetaOperatorsOf policy = true) →
      policy.requireApproval = some true →
      policy.approved ≠ some true →
      (∀ b ∈ extractExecutableBins cmd, isCommandAllowed b policy = true) →
      runCommandDecision cmd policy = Decision.requiresApproval cmd) ∧
    (∀ (cmd : String) (policy : RunCommandPolicy) (b : String),
      policy.requireApproval = none →
      policy.approved = some true →
      b ∈ extractExecutableBins cmd →
      isCommandAllowed b policy = false →
      isAccept (runCommandDecision cmd policy) = false) := by
  constructor
  · intro cmd policy hgate hreq happ hall
    have hfind : (extractExecutableBins cmd).find?
        (fun bin => !isCommandAllowed bin policy) = none := by
      rw [List.find?_eq_none]
      intro x hx
      simp [hall x hx]
    have hcond : ¬(hasMetaOperators cmd = true ∧ allowMetaOperatorsOf policy = false) := by
      rcases hgate with h | h
      · intro hc
        rw [h] at hc
        exact absurd hc.1 (by simp)
      · intro hc
        rw [h] at hc
        exact absurd hc.2 (by simp)
    simp [runCommandDecision, hcond, hfind, hreq, happ]
  · intro cmd policy b _ _ hb hden
    by_cases hmeta : hasMetaOperators cmd = true ∧ allowMetaOperatorsOf policy = false
    · simp [runCommandDecision, hmeta, isAccept]
    · have hsome : ((extractExecutableBins cmd).find?
          (fun bin => !isCommandAllowed bin policy)).isSome := by
        rw [List.find?_isSome]
        exact ⟨b, hb, by simp [hden]⟩
      obtain ⟨d, hd⟩ := Option.isSome_iff_exists.mp hsome
      simp [runCommandDecision, hmeta, hd, isAccept]

/-- C6 counterexample: the command `echo hi` contains no meta operator,
yet under a policy whose only content is `strictPolicy.allowMetaOperators
= true` it is delegated to the host shell, not tokenized and spawned
directly as the claim requires for every command without meta
operators: the dispatch branches on the flag alone, not on whether meta
operators were present. -/
theorem no_meta_command_still_shell_delegated :
    hasMetaOperators "echo hi" = false ∧
    isAccept (runCommandDecision "echo hi"
      { strictPolicy := some { allowMetaOperators := some true } }) = true ∧
    runCommandDecision "echo hi" { strictPolicy := some { allowMetaOperators := some true } } =
      Decision.shellDelegate "echo hi" ∧
    (decide (Decision.shellDelegate "echo hi" = Decision.spawnDirect "echo" ["hi"])) = false :=
  ⟨rfl, rfl, rfl, rfl⟩

/-- C6 (amended): when every rejection check passes, the dispatch choice
is decided by the `strictPolicy.allowMetaOperators` flag alone: if the
flag is true the full original string is delegated to the host shell
(whether or not meta operators are present); if it is not true the
string is tokenized into argv and the program is spawned directly with
no shell, and in that case the accepted command can contain no meta
operators. -/
theorem dispatch_depends_only_on_strict_flag (cmd : String) (policy : RunCommandPolicy)
    (hacc : isAccept (runCommandDecision cmd policy) = true) :
    (allowMetaOperatorsOf policy = true →
      runCommandDecision cmd policy = Decision.shellDelegate cmd) ∧
    (allowMetaOperatorsOf policy = false →
      (∃ file args, parseArgv cmd = Except.ok (file :: args) ∧
        runCommandDecision cmd policy = Decision.spawnDirect file args) ∧
      hasMetaOperators cmd = false) := by
  by_cases h1 : hasMetaOperators cmd = true ∧ allowMetaOperatorsOf policy = false
  · exfalso
    simp [runCommandDecision, h1, isAccept] at hacc
  · rcases hfind : (extractExecutableBins cmd).find?
        (fun bin => !isCommandAllowed bin policy) with _ | d
    · by_cases h2 : policy.requireApproval = some true ∧ policy.approved ≠ some true
      · exfalso
        simp [runCommandDecision, h1, hfind, h2, isAccept] at hacc
      · by_cases h3 : allowMetaOperatorsOf policy = false
        · have hM : hasMetaOperators cmd = false := by
            cases hmb : hasMetaOperators cmd with
            | false => rfl
            | true => exact absurd ⟨hmb, h3⟩ h1
          rcases hparse : parseArgv cmd with msg | argv
          · exfalso
            simp [runCommandDecision, hM, hfind, h2, h3, hparse, isAccept] at hacc
          · rcases argv with _ | ⟨f, args⟩
            · exfalso
              simp [runCommandDecision, hM, hfind, h2, h3, hparse, isAccept] at hacc
            · constructor
              · intro hT
                rw [hT] at h3
                cases h3
              · intro _
                refine ⟨⟨f, args, rfl, ?_⟩, hM⟩
                simp [runCommandDecision, hM, hfind, h2, h3, hparse]
        · have h3' : allowMetaOperatorsOf policy = true := by
            cases hv : allowMetaOperatorsOf policy with
            | false => exact absurd hv h3
            | true => rfl
          constructor
          · intro _
            simp [runCommandDecision, h1, hfind, h2, h3']
          · intro hF
            rw [h3'] at hF
            cases hF
    · exfalso
      simp [runCommandDecision, h1, hfind, isAccept] at hacc

/-- C6 witness: the accepted command `echo hello` under an allow list
and no strict flag is tokenized and spawned directly. -/
theorem dispatch_depends_only_on_strict_flag_witness :
    (∃ file args, parseArgv "echo hello" = Except.ok (file :: args) ∧
      runCommandDecision "echo hello" { allowList := some ["echo"] } =
        Decision.spawnDirect file args) ∧
    hasMetaOperators "echo hello" = false :=
  (dispatch_depends_only_on_strict_flag "echo hello" { allowList := some ["echo"] } rfl).2 rfl

/-- C7: the argv tokenizer splits on unquoted whitespace and consumes
quote and escape markers (`a "b c" d` gives exactly the tokens `a`,
`b c`, `d`); whenever the scan ends with a quote still open or an
escape still pending it fails with the invalid-syntax error and never
returns a (truncated) token list; within single quotes no escaping
happens, so any quote-free content — backslashes and whitespace
included — becomes one literal token; and outside single quotes a
backslash escapes the next character, which is copied literally. -/
theorem parseArgv_spec :
    parseArgv "a \"b c\" d" = Except.ok ["a", "b c", "d"] ∧
    (∀ s : String,
      (argvScan s.data).inSingleQuote = true ∨ (argvScan s.data).inDoubleQuote = true ∨
        (argvScan s.data).escapeNext = true →
      parseArgv s = Except.error ("Invalid command syntax: " ++ s)) ∧
    (∀ s : String, s ≠ "" → ¬('\'' ∈ s.data) →
      parseArgv ("'" ++ s ++ "'") = Except.ok [s]) ∧
    (∀ c : Char, parseArgv (String.mk ['\\', c]) = Except.ok [String.mk [c]]) := by
  refine ⟨rfl, ?_, ?_, ?_⟩
  · intro s h
    have hmk : String.mk s.data = s := rfl
    simp only [parseArgv, parseArgvL]
    rw [if_pos h]
    rw [hmk]
    rfl
  · intro s hne hq
    have hdata : ("'" ++ s ++ "'").data = '\'' :: (s.data ++ ['\'']) := by
      simp [String.data_append]
    have hsd : s.data ≠ [] := fun h => hne ((data_eq_nil_iff s).mp h)
    simp only [parseArgv, parseArgvL, argvScan]
    rw [hdata]
    rw [List.foldl_cons]
    have h0 : argvStep ⟨[], [], false, false, false⟩ '\'' = ⟨[], [], true, false, false⟩ := rfl
    rw [h0, List.foldl_append, foldl_argvStep_single s.data [] [] hq]
    have h1 : argvStep ⟨[], [] ++ s.data, true, false, false⟩ '\'' =
        ⟨[], s.data, false, false, false⟩ := by
      simp [argvStep]
    simp only [List.foldl_cons, List.foldl_nil, h1]
    simp [hsd, Except.map]
  · intro c
    simp only [parseArgv, parseArgvL, argvScan]
    have h0 : argvStep ⟨[], [], false, false, false⟩ '\\' = ⟨[], [], false, false, true⟩ := rfl
    have h1 : argvStep ⟨[], [], false, false, true⟩ c = ⟨[], [c], false, false, false⟩ := by
      simp [argvStep]
    simp only [List.foldl_cons, List.foldl_nil, h0, h1]
    simp [Except.map]

/-- C7 witness: the unterminated double quote `"abc` makes the
tokenizer fail with the invalid-syntax error. -/
theorem parseArgv_spec_witness :
    parseArgv "\"abc" = Except.error ("Invalid command syntax: " ++ "\"abc") :=
  parseArgv_spec.2.1 "\"abc" (Or.inr (Or.inl (by decide)))

/-- C8 counterexample: the segmenter never reports invalid syntax: on
the unterminated single quote `'` and on the trailing escape `a\` it
silently returns the accumulated text as an ordinary segment, and
inside single quotes a backslash does escape the following character,
so in `'a\';x` the quote never closes, the `;` is not treated as an
operator and the whole text stays one segment instead of splitting. -/
theorem segmenter_silently_accepts_unterminated :
    splitByMetaOperators "'" = ["'"] ∧
    splitByMetaOperators "a\\" = ["a\\"] ∧
    splitByMetaOperators "'a\\';x" = ["'a\\';x"] ∧
    (splitByMetaOperators "'a\\';x").contains "'a\\'" = false :=
  ⟨rfl, rfl, rfl, rfl⟩

/-- C8 (amended): the meta-operator segmenter is total and silently
succeeds on every input — on unterminated quotes or a trailing escape
it returns the accumulated segments, always trimmed and non-empty —
while the invalid-syntax report for an open quote or pending escape is
produced by the argv tokenizer instead; and in the segmenter a
backslash escapes the next character even inside single quotes, both
being copied literally, so a backslash-quote inside single quotes does
not close the quote. -/
theorem segmenter_total_and_tokenizer_reports :
    (∀ (s seg : String), seg ∈ splitByMetaOperators s → seg ≠ "") ∧
    splitByMetaOperators "\"abc" = ["\"abc"] ∧
    splitByMetaOperators "echo \\" = ["echo \\"] ∧
    parseArgv "echo \\" = Except.error ("Invalid command syntax: " ++ "echo \\") ∧
    splitByMetaOperators "'b\\';y" = ["'b\\';y"] ∧
    (splitByMetaOperators "'b\\';y").contains "y" = false := by
  refine ⟨?_, rfl, rfl, rfl, rfl, rfl⟩
  intro s seg hseg
  simp only [splitByMetaOperators, List.mem_map] at hseg
  obtain ⟨l, hl, rfl⟩ := hseg
  have hne := splitSegsGo_mem_ne_nil (s.data.length) s.data [] false false false l hl
  intro hc
  apply hne
  have : (String.mk l).data = l := rfl
  rw [← this, hc]

end Fusy
